import Mathlib

/-!
# TalentScan — verification of the scoring heuristic and data lifecycle

Shallow embedding of `src/TalentScan/app.py`. Python strings are modelled as
`List Char` (the app only ever manipulates ASCII-relevant behaviour:
lower-casing, whitespace stripping, digit scanning); Python floats are
modelled as `ℚ` with `round(x, 1)` modelled as round-half-to-even, Python's
documented rounding mode; database rows are modelled as a list of records
with an abstract numeric `created_at` timestamp (ISO-8601 strings of a fixed
format compare lexicographically exactly as the instants they denote).
External collaborators (werkzeug's `secure_filename`, the pdf/docx text
extractors, the clock) are oracles passed in as parameters.
-/

set_option maxRecDepth 8000

namespace TalentScan

/-- Python's whitespace class over ASCII: the characters matched by `\s`
and stripped by `str.strip()`. -/
def isPySpace (c : Char) : Bool :=
  c = ' ' || c = '\t' || c = '\n' || c = '\r' || c = Char.ofNat 11 || c = Char.ofNat 12

/-- `text.lower()` (ASCII). -/
def lowerStr (cs : List Char) : List Char := cs.map Char.toLower

/-- `s.strip()`: drop whitespace from both ends. -/
def pyStrip (cs : List Char) : List Char :=
  ((cs.dropWhile isPySpace).reverse.dropWhile isPySpace).reverse

/-- `a.startswith(b)` as an executable check (b the candidate start). -/
def isPrefixB : List Char → List Char → Bool
  | [], _ => true
  | _ :: _, [] => false
  | a :: as, b :: bs => a = b && isPrefixB as bs

/-- Python's `needle in hay` substring containment. -/
def isSubstrB (needle : List Char) : List Char → Bool
  | [] => needle.isEmpty
  | c :: cs => isPrefixB needle (c :: cs) || isSubstrB needle cs

/-- `int(ds)` on a string of decimal digits. -/
def digitsToNat (ds : List Char) : Nat :=
  ds.foldl (fun n c => n * 10 + (c.toNat - 48)) 0

/-! ## `find_years_of_experience` (app.py lines 72-80)

The Python code runs
`re.findall(r"(\d+)\s*\+\s*years|(\d+)\s+years|(\d+)-year", text, re.I)`
and takes the maximum captured integer (0 if none).  The scan below is that
regex engine's behaviour specialised to this pattern: at each position the
engine takes the maximal digit run (a shorter run never helps, since no
alternative's tail may begin with a digit) and tries the three alternatives'
tails in order; on a match it continues after the consumed region
(non-overlapping matches), otherwise it advances one character. -/

/-- Case-insensitive literal match: consume `lit` (given lower-case) from the
front of the input, returning the remainder. -/
def matchLitCI : List Char → List Char → Option (List Char)
  | [], cs => some cs
  | _ :: _, [] => none
  | p :: ps, c :: cs => if c.toLower = p then matchLitCI ps cs else none

/-- Tail of the first alternative: `\s*\+\s*years` (case-insensitive). -/
def tailPlusYears (cs : List Char) : Option (List Char) :=
  match cs.dropWhile isPySpace with
  | c :: rest =>
    if c = '+' then matchLitCI ['y', 'e', 'a', 'r', 's'] (rest.dropWhile isPySpace)
    else none
  | [] => none

/-- Tail of the second alternative: `\s+years` (case-insensitive). -/
def tailSpaceYears (cs : List Char) : Option (List Char) :=
  match cs with
  | c :: rest =>
    if isPySpace c then matchLitCI ['y', 'e', 'a', 'r', 's'] (rest.dropWhile isPySpace)
    else none
  | [] => none

/-- Tail of the third alternative: `-year` (case-insensitive). -/
def tailDashYear (cs : List Char) : Option (List Char) :=
  match cs with
  | c :: rest => if c = '-' then matchLitCI ['y', 'e', 'a', 'r'] rest else none
  | [] => none

/-- One attempted match of the alternation at the current position: the
captured number and the unconsumed remainder. -/
def matchYearsAt (cs : List Char) : Option (Nat × List Char) :=
  let ds := cs.takeWhile Char.isDigit
  let rest := cs.dropWhile Char.isDigit
  if ds.isEmpty then none
  else
    match tailPlusYears rest with
    | some r => some (digitsToNat ds, r)
    | none =>
      match tailSpaceYears rest with
      | some r => some (digitsToNat ds, r)
      | none =>
        match tailDashYear rest with
        | some r => some (digitsToNat ds, r)
        | none => none

/-- The `re.findall` scan: left to right, skipping past each match.  The
fuel argument (instantiated with the text's length, which every step
strictly decreases) keeps the recursion structural. -/
def scanYears : Nat → List Char → List Nat
  | 0, _ => []
  | _ + 1, [] => []
  | fuel + 1, c :: cs =>
    match matchYearsAt (c :: cs) with
    | some (v, r) => v :: scanYears fuel r
    | none => scanYears fuel cs

/-- `find_years_of_experience`: maximum captured value, 0 when none. -/
def find_years_of_experience (text : List Char) : Nat :=
  (scanYears text.length text).foldr max 0

/-! ## `find_education` (app.py lines 82-90) -/

/-- `find_education`: keyword checks on the lower-cased text, in priority
order PhD, Master, Bachelor.  The `"Post-graduate"` test is carried over
verbatim from the source (it can never hold of lower-cased text). -/
def find_education (text : List Char) : String :=
  let t := lowerStr text
  if isSubstrB "phd".toList t || isSubstrB "ph.d".toList t || isSubstrB "doctorate".toList t then
    "PhD"
  else if isSubstrB "master".toList t || isSubstrB "ms ".toList t ||
      isSubstrB "m.sc".toList t || isSubstrB "Post-graduate".toList t then
    "Master"
  else if isSubstrB "bachelor".toList t || isSubstrB "b.s".toList t ||
      isSubstrB "bs ".toList t || isSubstrB "under-graduate".toList t ||
      isSubstrB "be".toList t then
    "Bachelor"
  else
    "Not specified"

/-! ## Rounding

Python's `round(x, 1)` rounds to the nearest multiple of 1/10, resolving
ties to an even final digit (round-half-to-even). -/

/-- Round-half-to-even to the nearest integer. -/
def pyRound (q : ℚ) : ℤ :=
  if q - ⌊q⌋ < 1 / 2 then ⌊q⌋
  else if 1 / 2 < q - ⌊q⌋ then ⌊q⌋ + 1
  else if ⌊q⌋ % 2 = 0 then ⌊q⌋ else ⌊q⌋ + 1

/-- `round(q, 1)`. -/
def round1 (q : ℚ) : ℚ := (pyRound (q * 10) : ℚ) / 10

/-! ## `score_resume` (app.py lines 92-122) -/

structure ScoreResult where
  score : ℚ
  matched_skills : List (List Char)
  years : Nat
  education : String
deriving DecidableEq

def score_resume (text : List Char) (required_skills : List (List Char)) : ScoreResult :=
  let text_l := lowerStr text
  let skills0 :=
    (required_skills.filter (fun s => !(pyStrip s).isEmpty)).map (fun s => lowerStr (pyStrip s))
  let skills := if skills0.isEmpty then [] else skills0
  let matched_skills := skills.filter (fun s => isSubstrB s text_l)
  let skills_score : ℚ :=
    if skills.isEmpty then 0 else (matched_skills.length : ℚ) / (skills.length : ℚ) * 70
  let years := find_years_of_experience text
  let years_score : ℚ := ((min years 10 : ℕ) : ℚ) / 10 * 30
  let education := find_education text
  let edu_score : ℚ :=
    if education = "PhD" then 10
    else if education = "Master" then 7
    else if education = "Bachelor" then 4
    else 0
  let total := round1 (min (skills_score + years_score + edu_score) 100)
  { score := total, matched_skills := matched_skills, years := years, education := education }

/-! ## Skill-list derivation and the submit handler (app.py lines 135-188) -/

/-- The character class `[A-Za-z\+#]` of the keyword regex. -/
def isTokenChar (c : Char) : Bool := c.isAlpha || c = '+' || c = '#'

/-- `re.findall(r"[A-Za-z\+#]{2,}", s)`: the maximal runs of class characters
of length at least 2, left to right (fuel = length of the text). -/
def findTokens : Nat → List Char → List (List Char)
  | 0, _ => []
  | _ + 1, [] => []
  | fuel + 1, c :: cs =>
    if isTokenChar c then
      let run := c :: cs.takeWhile isTokenChar
      let rest := cs.dropWhile isTokenChar
      if 2 ≤ run.length then run :: findTokens fuel rest else findTokens fuel rest
    else findTokens fuel cs

def stopwords : List (List Char) :=
  ["and", "or", "the", "with", "to", "for", "of", "in", "on", "a", "an"].map String.toList

/-- The fallback keyword derivation of app.py lines 166-168: tokens of the
job description, stopwords dropped (case-insensitively), first 10 kept. -/
def derive_skills (job_description : List Char) : List (List Char) :=
  ((findTokens job_description.length job_description).filter
    (fun w => !(stopwords.contains (lowerStr w)))).take 10

def ALLOWED_EXTENSIONS : List (List Char) := ["pdf".toList, "docx".toList]

/-- `filename.rsplit(".", 1)[1]`: the part after the last dot. -/
def extAfterLastDot (filename : List Char) : List Char :=
  (filename.reverse.takeWhile (fun c => c ≠ '.')).reverse

/-- `allowed_file` (app.py lines 58-59). -/
def allowed_file (filename : List Char) : Bool :=
  filename.contains '.' && ALLOWED_EXTENSIONS.contains (lowerStr (extAfterLastDot filename))

structure ResumeRecord where
  name : List Char
  email : List Char
  filename : List Char
  score : ℚ
  matchesCol : List Char
  years_experience : Nat
  education : String
  job_description : List Char
  created_at : Nat
deriving DecidableEq

/-- `",".join(xs)`. -/
def commaJoin (xs : List (List Char)) : List Char := List.intercalate [','] xs

/-- `[s.strip() for s in skills_raw.split(",") if s.strip()]`. -/
def parseSkills (skills_raw : List Char) : List (List Char) :=
  ((skills_raw.splitOn ',').map pyStrip).filter (fun s => !s.isEmpty)

inductive SubmitOutcome where
  | rejected (message : String)
  | success (record : ResumeRecord)
deriving DecidableEq

/-- The submit handler's external collaborators, passed as oracles: the
sanitized timestamp-prefixed stored name (werkzeug + clock), the text the
document parsers extract, and the insertion timestamp. -/
structure SubmitEnv where
  storedFilename : List Char
  extractedText : List Char
  now : Nat

/-- The `POST /submit` handler (app.py lines 135-188) over the form fields,
the optional uploaded file's name, the external oracles and the current
database contents.  Returns the HTTP outcome and the new database. -/
def submit (nameF emailF jdF skillsF : List Char) (file : Option (List Char))
    (env : SubmitEnv) (db : List ResumeRecord) : SubmitOutcome × List ResumeRecord :=
  let name := pyStrip nameF
  let email := pyStrip emailF
  let job_description := pyStrip jdF
  let skills_raw := pyStrip skillsF
  let skills := parseSkills skills_raw
  match file with
  | none => (SubmitOutcome.rejected "Please attach a resume (PDF or DOCX).", db)
  | some fname =>
    if fname.isEmpty then
      (SubmitOutcome.rejected "Please attach a resume (PDF or DOCX).", db)
    else if !allowed_file fname then
      (SubmitOutcome.rejected "Unsupported file type. Allowed: pdf, docx", db)
    else
      let filename := env.storedFilename
      let text := env.extractedText
      if text.isEmpty then
        (SubmitOutcome.rejected
          "Could not extract text from the resume. Make sure the file is valid.", db)
      else
        let skills2 := if skills.isEmpty then derive_skills job_description else skills
        let result := score_resume text skills2
        let record : ResumeRecord :=
          { name := name, email := email, filename := filename, score := result.score,
            matchesCol := commaJoin result.matched_skills, years_experience := result.years,
            education := result.education, job_description := job_description,
            created_at := env.now }
        (SubmitOutcome.success record, db ++ [record])

/-- Recency order on records: `a` no older than `b` (descending
`created_at`, the order of the admin listing's `ORDER BY created_at DESC`). -/
def moreRecent (a b : ResumeRecord) : Prop := b.created_at ≤ a.created_at

instance : DecidableRel moreRecent := fun a b => Nat.decLe b.created_at a.created_at

instance : IsTotal ResumeRecord moreRecent :=
  ⟨fun a b => Nat.le_total b.created_at a.created_at⟩

instance : IsTrans ResumeRecord moreRecent :=
  ⟨fun _ _ _ h h' => Nat.le_trans h' h⟩

/-- `SELECT * FROM resumes ORDER BY created_at DESC` (app.py line 208): all
records, most recent first. -/
def listAll (db : List ResumeRecord) : List ResumeRecord :=
  List.insertionSort moreRecent db

/-- `INSERT INTO resumes ...` (app.py lines 174-188): append-only. -/
def insertRecord (db : List ResumeRecord) (r : ResumeRecord) : List ResumeRecord :=
  db ++ [r]

/-! ## Spec-side vocabulary -/

/-- The PhD keywords of `find_education`, as substring occurrence facts. -/
def phdMarker (t : List Char) : Prop :=
  "phd".toList <:+: t ∨ "ph.d".toList <:+: t ∨ "doctorate".toList <:+: t

/-- The Master keywords of `find_education`. -/
def masterMarker (t : List Char) : Prop :=
  "master".toList <:+: t ∨ "ms ".toList <:+: t ∨ "m.sc".toList <:+: t ∨
    "Post-graduate".toList <:+: t

/-- The Bachelor keywords of `find_education`, the bare two-letter "be" among
them. -/
def bachelorMarker (t : List Char) : Prop :=
  "bachelor".toList <:+: t ∨ "b.s".toList <:+: t ∨ "bs ".toList <:+: t ∨
    "under-graduate".toList <:+: t ∨ "be".toList <:+: t

instance (t : List Char) : Decidable (phdMarker t) :=
  inferInstanceAs (Decidable (_ ∨ _ ∨ _))

instance (t : List Char) : Decidable (masterMarker t) :=
  inferInstanceAs (Decidable (_ ∨ _ ∨ _ ∨ _))

instance (t : List Char) : Decidable (bachelorMarker t) :=
  inferInstanceAs (Decidable (_ ∨ _ ∨ _ ∨ _ ∨ _))

/-- The lower-cased, whitespace-trimmed forms of the supplied skills, the
ones that are empty after trimming dropped (the scorer's normalisation,
spec §4.3 step 1). -/
def normalizedSkills (skills : List (List Char)) : List (List Char) :=
  (skills.filter (fun s => !(pyStrip s).isEmpty)).map (fun s => lowerStr (pyStrip s))

/-! ## Bridge lemmas: boolean string tests against their propositional form -/

theorem isPrefixB_iff (n h : List Char) : isPrefixB n h = true ↔ n <+: h := by
  induction n generalizing h with
  | nil => simp [isPrefixB]
  | cons a as ih =>
    cases h with
    | nil => simp [isPrefixB]
    | cons b bs => simp [isPrefixB, ih, List.cons_prefix_cons]

theorem isSubstrB_iff (n h : List Char) : isSubstrB n h = true ↔ n <:+: h := by
  induction h with
  | nil => simp [isSubstrB, List.isEmpty_iff]
  | cons c cs ih => simp [isSubstrB, isPrefixB_iff, ih, List.infix_cons_iff]

/-- `find_education` in terms of the marker predicates: first category whose
markers occur in the lower-cased text wins, in order PhD, Master, Bachelor. -/
theorem find_education_characterization (text : List Char) :
    find_education text =
      if phdMarker (lowerStr text) then "PhD"
      else if masterMarker (lowerStr text) then "Master"
      else if bachelorMarker (lowerStr text) then "Bachelor"
      else "Not specified" := by
  simp only [find_education, phdMarker, masterMarker, bachelorMarker, Bool.or_eq_true,
    isSubstrB_iff, or_assoc]

/-! ## Claim theorems: education extraction -/

/-- C3: `find_education` checks categories in priority order PhD, then
Master, then Bachelor — the first category whose marker substrings occur in
the lowercased text wins (in particular a text with both "phd" and
"bachelor" markers yields "PhD") — and returns "Not specified" if no
category's markers match. -/
theorem education_priority_order (text : List Char) :
    find_education text =
      if phdMarker (lowerStr text) then "PhD"
      else if masterMarker (lowerStr text) then "Master"
      else if bachelorMarker (lowerStr text) then "Bachelor"
      else "Not specified" :=
  find_education_characterization text

/-- C9: any text whose lowercase form contains the bare substring "be" and
no PhD or Master marker is classified "Bachelor"; hence "Not specified" is
returned only for texts avoiding every Bachelor marker including "be". -/
theorem education_be_substring_quirk (text : List Char) :
    ("be".toList <:+: lowerStr text ∧ ¬ phdMarker (lowerStr text) ∧
        ¬ masterMarker (lowerStr text) → find_education text = "Bachelor") ∧
    (find_education text = "Not specified" → ¬ ("be".toList <:+: lowerStr text)) := by
  rw [find_education_characterization text]
  constructor
  · rintro ⟨hbe, hphd, hms⟩
    rw [if_neg hphd, if_neg hms,
      if_pos (show bachelorMarker (lowerStr text) from Or.inr (Or.inr (Or.inr (Or.inr hbe))))]
  · intro hns hbe
    split_ifs at hns with h1 h2 h3
    · exact absurd hns (by decide)
    · exact absurd hns (by decide)
    · exact absurd hns (by decide)
    · exact h3 (Or.inr (Or.inr (Or.inr (Or.inr hbe))))

/-! ## Claim theorems: matched skills (C5, C10) -/

/-- C5 counterexample: with requested skill "Python" and a text containing
"python", the stored matched skill is the normalised "python", which is not
an element of the requested list — so `matched_skills` is not in general a
subset of the caller's skill list. -/
theorem matched_not_raw_subset_cex :
    ¬ ((score_resume "Python developer".toList ["Python".toList]).matched_skills ⊆
        ["Python".toList]) := by decide

/-- C5 (amended): every matched skill is the lower-cased, trimmed form of
one of the requested skills, i.e. `matched_skills` is a subset of the
normalised requested skill list. -/
theorem matched_subset_of_normalized (text : List Char) (skills : List (List Char)) :
    (score_resume text skills).matched_skills ⊆
      skills.map (fun s => lowerStr (pyStrip s)) := by
  intro m hm
  simp only [score_resume] at hm
  rcases List.mem_filter.mp hm with ⟨hm1, -⟩
  split at hm1
  · simp at hm1
  · rcases List.mem_map.mp hm1 with ⟨s, hs, rfl⟩
    exact List.mem_map.mpr ⟨s, (List.mem_filter.mp hs).1, rfl⟩

/-- C10 counterexample: for text "ruby" and skills ["python"] the matched
list is empty while the normalised-forms list is ["python"]: the matched
list does not consist of all the normalised supplied skills. -/
theorem matched_not_all_normalized_cex :
    (score_resume "ruby".toList ["python".toList]).matched_skills ≠
      normalizedSkills ["python".toList] := by decide

/-- C10 (amended): `matched_skills` is exactly those lower-cased, trimmed
forms of the supplied skills (empty-after-trim dropped) that occur as
substrings of the lower-cased text, in the supplied order with duplicates
kept per occurrence — in particular it is an order-preserving sublist of the
normalised skill list. -/
theorem matched_characterization (text : List Char) (skills : List (List Char)) :
    (score_resume text skills).matched_skills =
      (normalizedSkills skills).filter (fun s => isSubstrB s (lowerStr text)) ∧
    List.Sublist (score_resume text skills).matched_skills (normalizedSkills skills) := by
  have h : (score_resume text skills).matched_skills =
      (normalizedSkills skills).filter (fun s => isSubstrB s (lowerStr text)) := by
    simp only [score_resume, normalizedSkills]
    split
    · next heq => rw [List.isEmpty_iff.mp heq]
    · rfl
  exact ⟨h, h ▸ List.filter_sublist _⟩

/-! ## Claim theorems: keyword derivation scenario (C6) -/

def jdScenario : List Char :=
  "Looking for a Go developer with Docker and AWS experience".toList

/-- The candidate set named by the claim, minus the stopword set. -/
def claimKeywordSet : List (List Char) :=
  (["Looking", "developer", "with", "Docker", "and", "AWS", "experience"].map
    String.toList).filter (fun w => !(stopwords.contains (lowerStr w)))

/-- C6 counterexample: the derived skills include "Go" (length-2 token, not
a stopword), which the claim's candidate set omits, so the derived list is
not a subset of that set minus stopwords. -/
theorem derive_skills_go_cex :
    "Go".toList ∈ derive_skills jdScenario ∧ "Go".toList ∉ claimKeywordSet ∧
      ¬ (derive_skills jdScenario ⊆ claimKeywordSet) := by decide

/-- C6 (amended): with "Go" added to the candidate set, the derived skill
list is a subset of the set minus stopwords, preserves the original word
order of the job description, and has at most 10 elements. -/
theorem derive_skills_scenario_amended :
    derive_skills jdScenario ⊆
      (["Looking", "Go", "developer", "with", "Docker", "and", "AWS", "experience"].map
        String.toList).filter (fun w => !(stopwords.contains (lowerStr w))) ∧
    List.Sublist (derive_skills jdScenario)
      (["Looking", "for", "a", "Go", "developer", "with", "Docker", "and", "AWS",
        "experience"].map String.toList) ∧
    (derive_skills jdScenario).length ≤ 10 := by decide

/-! ## Claim theorems: record store round-trip (C8) -/

/-- C8: an inserted record is retrievable, with identical field values, via
the listing; the listing returns all records (a permutation of the store)
ordered by `created_at` descending. -/
theorem record_roundtrip_listing (db : List ResumeRecord) (r : ResumeRecord) :
    r ∈ listAll (insertRecord db r) ∧ List.Perm (listAll db) db ∧
      List.Sorted moreRecent (listAll db) := by
  refine ⟨?_, List.perm_insertionSort _ _, List.sorted_insertionSort _ _⟩
  exact (List.perm_insertionSort moreRecent (insertRecord db r)).mem_iff.mpr
    (by simp [insertRecord])

/-! ## Rounding bounds and the score range (C1) -/

theorem le_pyRound (q : ℚ) : ⌊q⌋ ≤ pyRound q := by
  unfold pyRound; split_ifs <;> omega

theorem pyRound_le_half (q : ℚ) : (pyRound q : ℚ) ≤ q + 1 / 2 := by
  have h0 : (⌊q⌋ : ℚ) ≤ q := Int.floor_le q
  unfold pyRound
  split_ifs with h1 h2 h3 <;> push_cast <;> linarith

theorem round1_nonneg (q : ℚ) (h : 0 ≤ q) : 0 ≤ round1 q := by
  unfold round1
  have h1 : (0:ℤ) ≤ ⌊q * 10⌋ := Int.floor_nonneg.mpr (by linarith)
  have h2 : (0:ℤ) ≤ pyRound (q * 10) := le_trans h1 (le_pyRound _)
  have h3 : (0:ℚ) ≤ (pyRound (q * 10) : ℚ) := by exact_mod_cast h2
  exact div_nonneg h3 (by norm_num)

theorem round1_le_100 (q : ℚ) (h : q ≤ 100) : round1 q ≤ 100 := by
  unfold round1
  have h1 : (pyRound (q * 10) : ℚ) ≤ 1000 + 1 / 2 :=
    le_trans (pyRound_le_half _) (by linarith)
  have h2 : pyRound (q * 10) ≤ 1000 := by
    have hlt : (pyRound (q * 10) : ℚ) < (1001 : ℤ) := by push_cast; linarith
    exact Int.lt_add_one_iff.mp (by exact_mod_cast hlt)
  have h3 : (pyRound (q * 10) : ℚ) ≤ 1000 := by exact_mod_cast h2
  linarith

/-- C1: for every input text and every list of required skill strings, the
score returned by `score_resume` is within [0, 100] inclusive. -/
theorem score_always_in_range (text : List Char) (skills : List (List Char)) :
    0 ≤ (score_resume text skills).score ∧ (score_resume text skills).score ≤ 100 := by
  have key : ∀ s y e : ℚ, 0 ≤ s → 0 ≤ y → 0 ≤ e →
      0 ≤ round1 (min (s + y + e) 100) ∧ round1 (min (s + y + e) 100) ≤ 100 := by
    intro s y e hs hy he
    exact ⟨round1_nonneg _ (le_min (by linarith) (by norm_num)),
      round1_le_100 _ (min_le_right _ _)⟩
  simp only [score_resume]
  apply key
  · split_ifs <;>
      first
      | exact le_refl 0
      | exact mul_nonneg (div_nonneg (Nat.cast_nonneg _) (Nat.cast_nonneg _)) (by norm_num)
  · positivity
  · split_ifs <;> norm_num

/-! ## C2 scenario -/

theorem score_resume_score_eval (text : List Char) (skills : List (List Char)) :
    (score_resume text skills).score =
      round1 (min
        ((if (normalizedSkills skills).isEmpty then (0 : ℚ)
          else ((score_resume text skills).matched_skills.length : ℚ) /
            ((normalizedSkills skills).length : ℚ) * 70) +
         ((min (find_years_of_experience text) 10 : ℕ) : ℚ) / 10 * 30 +
         (if find_education text = "PhD" then (10 : ℚ)
          else if find_education text = "Master" then 7
          else if find_education text = "Bachelor" then 4
          else 0)) 100) := by
  simp only [score_resume, normalizedSkills]
  by_cases h : ((skills.filter (fun s => !(pyStrip s).isEmpty)).map
      (fun s => lowerStr (pyStrip s))).isEmpty
  · rw [if_pos h, if_pos h]
    simp [List.isEmpty_iff.mp h]
  · rw [if_neg h, if_neg h]

def scenarioText : List Char := "5 years of Python and SQL experience, PhD in CS".toList

def scenarioSkills : List (List Char) := ["python".toList, "sql".toList, "aws".toList]

/-- C2: for the text "5 years of Python and SQL experience, PhD in CS" and
skills ["python","sql","aws"], `score_resume` returns
matched_skills=["python","sql"], years=5, education="PhD", and score 71.7,
i.e. (2/3)·70 + (5/10)·30 + 10 rounded to one decimal place. -/
theorem scenario_python_sql_phd :
    (score_resume scenarioText scenarioSkills).matched_skills =
        ["python".toList, "sql".toList] ∧
      (score_resume scenarioText scenarioSkills).years = 5 ∧
      (score_resume scenarioText scenarioSkills).education = "PhD" ∧
      (score_resume scenarioText scenarioSkills).score =
        round1 ((2 : ℚ) / 3 * 70 + (5 : ℚ) / 10 * 30 + 10) ∧
      (score_resume scenarioText scenarioSkills).score = (717 : ℚ) / 10 := by
  have e1 : normalizedSkills scenarioSkills = scenarioSkills := by decide
  have e2 : (score_resume scenarioText scenarioSkills).matched_skills =
      ["python".toList, "sql".toList] := by decide
  have e3 : find_years_of_experience scenarioText = 5 := by decide
  have e4 : find_education scenarioText = "PhD" := by decide
  have e5 : scenarioSkills.isEmpty = false := by decide
  have e6 : scenarioSkills.length = 3 := by decide
  have hsc : (score_resume scenarioText scenarioSkills).score =
      round1 ((2 : ℚ) / 3 * 70 + (5 : ℚ) / 10 * 30 + 10) := by
    rw [score_resume_score_eval, e1, e2, e3, e4, e5, e6]
    congr 1
    rw [min_eq_left (by norm_num)]
    push_cast
    norm_num
  have hval : round1 ((2 : ℚ) / 3 * 70 + (5 : ℚ) / 10 * 30 + 10) = (717 : ℚ) / 10 := by
    have harg : ((2 : ℚ) / 3 * 70 + (5 : ℚ) / 10 * 30 + 10) * 10 = 2150 / 3 := by norm_num
    unfold round1
    rw [harg]
    have hf : ⌊(2150 : ℚ) / 3⌋ = 716 := by
      rw [Int.floor_eq_iff]
      constructor <;> norm_num
    unfold pyRound
    rw [hf]
    norm_num
  exact ⟨e2, by decide, e4, hsc, hsc.trans hval⟩

/-! ## C7: submit rejection conditions and the frame on the record store -/

def isRejected : SubmitOutcome → Bool
  | SubmitOutcome.rejected _ => true
  | SubmitOutcome.success _ => false

/-- The claim's rejection condition: no file attached (absent or with an
empty filename), a disallowed extension, or empty extracted text. -/
def rejectCondition (file : Option (List Char)) (env : SubmitEnv) : Prop :=
  match file with
  | none => True
  | some f => f = [] ∨ allowed_file f = false ∨ env.extractedText = []

/-- C7: the submit handler rejects with a user-visible message and inserts
no record exactly when no file is attached, the extension is not allowed, or
the extracted text is empty; on rejection the store is unchanged, and
otherwise exactly the scored record is appended. -/
theorem submit_reject_iff (nameF emailF jdF skillsF : List Char)
    (file : Option (List Char)) (env : SubmitEnv) (db : List ResumeRecord) :
    (isRejected (submit nameF emailF jdF skillsF file env db).1 = true ↔
      rejectCondition file env) ∧
    (isRejected (submit nameF emailF jdF skillsF file env db).1 = true →
      (submit nameF emailF jdF skillsF file env db).2 = db) ∧
    (isRejected (submit nameF emailF jdF skillsF file env db).1 = false →
      ∃ rec, (submit nameF emailF jdF skillsF file env db).1 = SubmitOutcome.success rec ∧
        (submit nameF emailF jdF skillsF file env db).2 = db ++ [rec]) := by
  cases file with
  | none => simp [submit, rejectCondition, isRejected]
  | some f =>
    simp only [submit, rejectCondition]
    by_cases h1 : f.isEmpty
    · rw [List.isEmpty_iff] at h1
      subst h1
      simp [isRejected]
    · rw [List.isEmpty_iff] at h1
      by_cases h2 : allowed_file f
      · by_cases h3 : env.extractedText.isEmpty
        · rw [List.isEmpty_iff] at h3
          simp [h1, h2, h3, isRejected, List.isEmpty_iff]
        · rw [List.isEmpty_iff] at h3
          simp [h1, h2, h3, isRejected, List.isEmpty_iff]
      · simp [h1, h2, isRejected, List.isEmpty_iff]
/-! ## C4: `find_years_of_experience` returns the maximum pattern occurrence

Spec-side vocabulary: an occurrence of the regex
`(\d+)\s*\+\s*years|(\d+)\s+years|(\d+)-year` (case-insensitive) at some
position of the text, described purely by string decomposition. -/

def spaceRun (s : List Char) : Prop := ∀ c ∈ s, isPySpace c = true

def digitRun (s : List Char) : Prop := ∀ c ∈ s, c.isDigit = true

/-- `s` renders `lit` case-insensitively (`lit` given lower-case). -/
def ciLit (lit s : List Char) : Prop := s.map Char.toLower = lit

/-- `sep` is what one of the three alternatives matches after the digits:
`\s*\+\s*years`, `\s+years` (at least one space), or `-year`. -/
def yearsSep (sep : List Char) : Prop :=
  (∃ sp1 sp2 ys, sep = sp1 ++ '+' :: (sp2 ++ ys) ∧ spaceRun sp1 ∧ spaceRun sp2 ∧
    ciLit "years".toList ys) ∨
  (∃ c sp ys, sep = c :: (sp ++ ys) ∧ isPySpace c = true ∧ spaceRun sp ∧
    ciLit "years".toList ys) ∨
  (∃ yr, sep = '-' :: yr ∧ ciLit "year".toList yr)

/-- The pattern matches at the head of `s`, capturing the integer `n`. -/
def IsYearsMatch (s : List Char) (n : Nat) : Prop :=
  ∃ ds sep rest, ds ≠ [] ∧ digitRun ds ∧ yearsSep sep ∧ s = ds ++ sep ++ rest ∧
    n = digitsToNat ds

/-- The pattern occurs somewhere in `text`, capturing `n`. -/
def YearsOccurs (text : List Char) (n : Nat) : Prop :=
  ∃ i, IsYearsMatch (text.drop i) n

/-! ### Character-level facts -/

theorem isPySpace_elim {c : Char} (h : isPySpace c = true) :
    c = ' ' ∨ c = '\t' ∨ c = '\n' ∨ c = '\r' ∨ c = Char.ofNat 11 ∨ c = Char.ofNat 12 := by
  simpa [isPySpace, or_assoc] using h

theorem isPySpace_not_digit {c : Char} (h : isPySpace c = true) : c.isDigit = false := by
  rcases isPySpace_elim h with rfl | rfl | rfl | rfl | rfl | rfl <;> decide

theorem isPySpace_toLower {c : Char} (h : isPySpace c = true) : c.toLower = c := by
  rcases isPySpace_elim h with rfl | rfl | rfl | rfl | rfl | rfl <;> decide

theorem digit_toLower {c : Char} (h : c.isDigit = true) : c.toLower = c := by
  simp only [Char.isDigit, Bool.and_eq_true, decide_eq_true_eq] at h
  have h3 : c.val.toNat ≤ 57 := UInt32.toNat_le_of_le (by norm_num) h.2
  simp only [Char.toLower, Char.toNat]
  rw [if_neg (by omega)]

/-- A character whose lower-casing is a non-digit is itself a non-digit. -/
theorem ci_not_digit {c d : Char} (h : c.toLower = d) (hd : d.isDigit = false) :
    c.isDigit = false := by
  cases hb : c.isDigit
  · rfl
  · rw [digit_toLower hb] at h
    subst h
    simp [hb] at hd

/-- A character whose lower-casing is a non-space is itself a non-space. -/
theorem ci_not_space {c d : Char} (h : c.toLower = d) (hd : isPySpace d = false) :
    isPySpace c = false := by
  cases hb : isPySpace c
  · rfl
  · rw [isPySpace_toLower hb] at h
    subst h
    simp [hb] at hd

/-! ### List scanning helpers -/

theorem dropWhile_append_run {p : Char → Bool} {a : List Char}
    (ha : ∀ c ∈ a, p c = true) (b : List Char) :
    List.dropWhile p (a ++ b) = List.dropWhile p b := by
  induction a with
  | nil => rfl
  | cons x xs ih =>
    simp only [List.cons_append, List.dropWhile_cons, ha x (by simp)]
    exact ih fun c hc => ha c (by simp [hc])

theorem takeDrop_append_run (p : Char → Bool) {a b : List Char}
    (ha : ∀ c ∈ a, p c = true) (hb : ∀ c t, b = c :: t → p c = false) :
    (a ++ b).takeWhile p = a ∧ (a ++ b).dropWhile p = b := by
  induction a with
  | nil =>
    cases b with
    | nil => simp
    | cons c t => simp [List.takeWhile_cons, List.dropWhile_cons, hb c t rfl]
  | cons x xs ih =>
    have hx := ha x (by simp)
    have ihr := ih (fun c hc => ha c (by simp [hc]))
    simp only [List.cons_append, List.takeWhile_cons, List.dropWhile_cons, hx]
    exact ⟨by simp [ihr.1], ihr.2⟩

theorem ciLit_cons {d : Char} {l2 ys : List Char} (h : ciLit (d :: l2) ys) :
    ∃ c t, ys = c :: t ∧ c.toLower = d ∧ ciLit l2 t := by
  cases ys with
  | nil => simp [ciLit] at h
  | cons c t =>
    simp only [ciLit, List.map_cons, List.cons.injEq] at h
    exact ⟨c, t, rfl, h.1, h.2⟩

theorem ciLit_no_digit {lit ys : List Char} (h : ciLit lit ys)
    (hl : ∀ d ∈ lit, d.isDigit = false) : ∀ c ∈ ys, c.isDigit = false := by
  intro c hc
  have : c.toLower ∈ lit := h ▸ List.mem_map_of_mem _ hc
  exact ci_not_digit rfl (hl _ this)

/-! ### `matchLitCI` soundness and completeness -/

theorem matchLitCI_sound {lit s r : List Char} (h : matchLitCI lit s = some r) :
    ∃ pre, s = pre ++ r ∧ ciLit lit pre := by
  induction lit generalizing s with
  | nil =>
    refine ⟨[], ?_, rfl⟩
    simpa [matchLitCI] using h
  | cons p ps ih =>
    cases s with
    | nil => simp [matchLitCI] at h
    | cons c cs =>
      simp only [matchLitCI] at h
      split at h
      next hc =>
        obtain ⟨pre, rfl, hci⟩ := ih h
        refine ⟨c :: pre, rfl, ?_⟩
        simp only [ciLit, List.map_cons, hc]
        simpa [ciLit] using hci
      next => exact absurd h (by simp)

theorem matchLitCI_complete {lit pre : List Char} (h : ciLit lit pre) (r : List Char) :
    matchLitCI lit (pre ++ r) = some r := by
  induction pre generalizing lit with
  | nil =>
    simp only [ciLit, List.map_nil] at h
    subst h
    rfl
  | cons c cs ih =>
    simp only [ciLit, List.map_cons] at h
    subst h
    simp only [List.cons_append, matchLitCI, if_pos rfl]
    exact ih rfl


/-! ### `yearsSep` facts -/

theorem yearsLit_no_digit : ∀ d ∈ "years".toList, d.isDigit = false := by decide

theorem yearLit_no_digit : ∀ d ∈ "year".toList, d.isDigit = false := by decide

theorem yearsSep_no_digit {sep : List Char} (h : yearsSep sep) :
    ∀ c ∈ sep, c.isDigit = false := by
  rcases h with ⟨sp1, sp2, ys, rfl, hsp1, hsp2, hys⟩ |
    ⟨c0, sp, ys, rfl, hc0, hsp, hys⟩ | ⟨yr, rfl, hyr⟩
  · intro c hc
    rcases List.mem_append.mp hc with hc | hc
    · exact isPySpace_not_digit (hsp1 c hc)
    · rcases List.mem_cons.mp hc with rfl | hc
      · decide
      · rcases List.mem_append.mp hc with hc | hc
        · exact isPySpace_not_digit (hsp2 c hc)
        · exact ciLit_no_digit hys yearsLit_no_digit c hc
  · intro c hc
    rcases List.mem_cons.mp hc with rfl | hc
    · exact isPySpace_not_digit hc0
    · rcases List.mem_append.mp hc with hc | hc
      · exact isPySpace_not_digit (hsp c hc)
      · exact ciLit_no_digit hys yearsLit_no_digit c hc
  · intro c hc
    rcases List.mem_cons.mp hc with rfl | hc
    · decide
    · exact ciLit_no_digit hyr yearLit_no_digit c hc

theorem yearsSep_ne_nil {sep : List Char} (h : yearsSep sep) : sep ≠ [] := by
  rcases h with ⟨sp1, sp2, ys, rfl, -, -, -⟩ | ⟨c0, sp, ys, rfl, -, -, -⟩ | ⟨yr, rfl, -⟩
  · simp
  · simp
  · simp

/-! ### Tail soundness: a successful tail consumes a `yearsSep` -/

theorem tailPlusYears_sound {t r : List Char} (h : tailPlusYears t = some r) :
    ∃ sep, t = sep ++ r ∧ yearsSep sep := by
  unfold tailPlusYears at h
  split at h
  next c u heq =>
    split at h
    next hc =>
      subst hc
      obtain ⟨ys, hys, hciys⟩ := matchLitCI_sound h
      have hsp1 : spaceRun (t.takeWhile isPySpace) := fun x hx => List.mem_takeWhile_imp hx
      have hsp2 : spaceRun (u.takeWhile isPySpace) := fun x hx => List.mem_takeWhile_imp hx
      refine ⟨t.takeWhile isPySpace ++ '+' :: (u.takeWhile isPySpace ++ ys), ?_, ?_⟩
      · conv_lhs => rw [← List.takeWhile_append_dropWhile isPySpace t, heq,
          ← List.takeWhile_append_dropWhile isPySpace u, hys]
        simp
      · exact Or.inl ⟨t.takeWhile isPySpace, u.takeWhile isPySpace, ys, rfl, hsp1, hsp2, hciys⟩
    next => exact absurd h (by simp)
  next => exact absurd h (by simp)

theorem tailSpaceYears_sound {t r : List Char} (h : tailSpaceYears t = some r) :
    ∃ sep, t = sep ++ r ∧ yearsSep sep := by
  unfold tailSpaceYears at h
  split at h
  next c rest =>
    split at h
    next hc =>
      obtain ⟨ys, hys, hciys⟩ := matchLitCI_sound h
      have hsp : spaceRun (rest.takeWhile isPySpace) := fun x hx => List.mem_takeWhile_imp hx
      refine ⟨c :: (rest.takeWhile isPySpace ++ ys), ?_, ?_⟩
      · conv_lhs => rw [← List.takeWhile_append_dropWhile isPySpace rest, hys]
        simp
      · exact Or.inr (Or.inl ⟨c, rest.takeWhile isPySpace, ys, rfl, hc, hsp, hciys⟩)
    next => exact absurd h (by simp)
  next => exact absurd h (by simp)

theorem tailDashYear_sound {t r : List Char} (h : tailDashYear t = some r) :
    ∃ sep, t = sep ++ r ∧ yearsSep sep := by
  unfold tailDashYear at h
  split at h
  next c rest =>
    split at h
    next hc =>
      subst hc
      obtain ⟨ys, hys, hciys⟩ := matchLitCI_sound h
      exact ⟨'-' :: ys, by simp [hys], Or.inr (Or.inr ⟨ys, rfl, hciys⟩)⟩
    next => exact absurd h (by simp)
  next => exact absurd h (by simp)

/-! ### Tail completeness: a `yearsSep` is consumed by one of the tails -/

theorem dropWhile_cons_neg {p : Char → Bool} {c : Char} {t : List Char}
    (h : p c = false) : List.dropWhile p (c :: t) = c :: t := by
  simp [List.dropWhile_cons, h]

theorem tails_complete {sep : List Char} (h : yearsSep sep) (r : List Char) :
    tailPlusYears (sep ++ r) = some r ∨ tailSpaceYears (sep ++ r) = some r ∨
      tailDashYear (sep ++ r) = some r := by
  rcases h with ⟨sp1, sp2, ys, rfl, hsp1, hsp2, hys⟩ |
    ⟨c0, sp, ys, rfl, hc0, hsp, hys⟩ | ⟨yr, rfl, hyr⟩
  · left
    obtain ⟨cy, ty, rfl, hcy, -⟩ := ciLit_cons hys
    have e1 : (sp1 ++ '+' :: (sp2 ++ cy :: ty)) ++ r =
        sp1 ++ ('+' :: (sp2 ++ (cy :: ty ++ r))) := by simp
    have e2 : List.dropWhile isPySpace (sp2 ++ (cy :: ty ++ r)) = cy :: ty ++ r := by
      rw [dropWhile_append_run hsp2]
      exact dropWhile_cons_neg (ci_not_space hcy (by decide))
    rw [e1]
    unfold tailPlusYears
    rw [dropWhile_append_run hsp1, dropWhile_cons_neg (by decide : isPySpace '+' = false)]
    show (if '+' = '+' then
        matchLitCI ['y', 'e', 'a', 'r', 's']
          (List.dropWhile isPySpace (sp2 ++ (cy :: ty ++ r)))
      else none) = some r
    rw [if_pos rfl, e2]
    exact matchLitCI_complete hys r
  · right; left
    obtain ⟨cy, ty, rfl, hcy, -⟩ := ciLit_cons hys
    have e1 : (c0 :: (sp ++ cy :: ty)) ++ r = c0 :: (sp ++ (cy :: ty ++ r)) := by simp
    have e2 : List.dropWhile isPySpace (sp ++ (cy :: ty ++ r)) = cy :: ty ++ r := by
      rw [dropWhile_append_run hsp]
      exact dropWhile_cons_neg (ci_not_space hcy (by decide))
    rw [e1]
    show (if isPySpace c0 = true then
        matchLitCI ['y', 'e', 'a', 'r', 's']
          (List.dropWhile isPySpace (sp ++ (cy :: ty ++ r)))
      else none) = some r
    rw [if_pos hc0, e2]
    exact matchLitCI_complete hys r
  · right; right
    have e1 : ('-' :: yr) ++ r = '-' :: (yr ++ r) := by simp
    rw [e1]
    show (if '-' = '-' then matchLitCI ['y', 'e', 'a', 'r'] (yr ++ r) else none) = some r
    rw [if_pos rfl]
    exact matchLitCI_complete hyr r

/-! ### `IsYearsMatch`: canonical decomposition and `matchYearsAt` -/

theorem IsYearsMatch_head_digit {s : List Char} {n : Nat} (h : IsYearsMatch s n) :
    ∃ c t, s = c :: t ∧ c.isDigit = true := by
  obtain ⟨ds, sep, rest, hne, hds, -, rfl, -⟩ := h
  cases ds with
  | nil => exact absurd rfl hne
  | cons c t => exact ⟨c, t ++ sep ++ rest, by simp, hds c (by simp)⟩

theorem not_isYearsMatch_nil {n : Nat} : ¬ IsYearsMatch [] n := by
  intro h
  obtain ⟨c, t, ht, -⟩ := IsYearsMatch_head_digit h
  simp at ht

theorem IsYearsMatch_canon {s : List Char} {n : Nat} (h : IsYearsMatch s n) :
    s.takeWhile Char.isDigit ≠ [] ∧
    n = digitsToNat (s.takeWhile Char.isDigit) ∧
    ∃ sep rest, yearsSep sep ∧ s.dropWhile Char.isDigit = sep ++ rest := by
  obtain ⟨ds, sep, rest, hne, hds, hsep, rfl, hn⟩ := h
  have hhead : ∀ c t, sep ++ rest = c :: t → Char.isDigit c = false := by
    intro c t hct
    cases sep with
    | nil => exact absurd rfl (yearsSep_ne_nil hsep)
    | cons c1 t1 =>
      simp only [List.cons_append, List.cons.injEq] at hct
      exact hct.1 ▸ yearsSep_no_digit hsep c1 (by simp)
  have hsplit := takeDrop_append_run Char.isDigit hds hhead
  rw [List.append_assoc, hsplit.1, hsplit.2]
  exact ⟨hne, hn, sep, rest, hsep, rfl⟩

theorem matchYearsAt_sound {s : List Char} {v : Nat} {r : List Char}
    (h : matchYearsAt s = some (v, r)) :
    ∃ ds sep, s = ds ++ sep ++ r ∧ ds ≠ [] ∧ digitRun ds ∧ yearsSep sep ∧
      v = digitsToNat ds := by
  have hassemble : ∀ sep r1 : List Char, s.dropWhile Char.isDigit = sep ++ r1 →
      yearsSep sep → s.takeWhile Char.isDigit ≠ [] →
      s = s.takeWhile Char.isDigit ++ sep ++ r1 := by
    intro sep r1 hdrop hsep hnil
    conv_lhs => rw [← List.takeWhile_append_dropWhile Char.isDigit s, hdrop]
    simp
  simp only [matchYearsAt] at h
  split at h
  · exact absurd h (by simp)
  next hne =>
    have hnil : s.takeWhile Char.isDigit ≠ [] := by
      intro hh
      rw [hh] at hne
      exact hne rfl
    have hds : digitRun (s.takeWhile Char.isDigit) :=
      fun c hc => List.mem_takeWhile_imp hc
    split at h
    next r1 heq1 =>
      obtain ⟨hv, hr⟩ : digitsToNat (s.takeWhile Char.isDigit) = v ∧ r1 = r := by
        simpa using h
      obtain ⟨sep, hdrop, hsep⟩ := tailPlusYears_sound heq1
      rw [hr] at hdrop
      exact ⟨_, sep, hassemble sep r hdrop hsep hnil, hnil, hds, hsep, hv.symm⟩
    next =>
      split at h
      next r1 heq1 =>
        obtain ⟨hv, hr⟩ : digitsToNat (s.takeWhile Char.isDigit) = v ∧ r1 = r := by
          simpa using h
        obtain ⟨sep, hdrop, hsep⟩ := tailSpaceYears_sound heq1
        rw [hr] at hdrop
        exact ⟨_, sep, hassemble sep r hdrop hsep hnil, hnil, hds, hsep, hv.symm⟩
      next =>
        split at h
        next r1 heq1 =>
          obtain ⟨hv, hr⟩ : digitsToNat (s.takeWhile Char.isDigit) = v ∧ r1 = r := by
            simpa using h
          obtain ⟨sep, hdrop, hsep⟩ := tailDashYear_sound heq1
          rw [hr] at hdrop
          exact ⟨_, sep, hassemble sep r hdrop hsep hnil, hnil, hds, hsep, hv.symm⟩
        next => exact absurd h (by simp)

theorem matchYearsAt_complete {s : List Char} {n : Nat} (h : IsYearsMatch s n) :
    ∃ r, matchYearsAt s = some (n, r) := by
  obtain ⟨hne, hn, sep, rest, hsep, hdrop⟩ := IsYearsMatch_canon h
  simp only [matchYearsAt]
  rw [if_neg (by simp [hne]), hdrop]
  rcases h1 : tailPlusYears (sep ++ rest) with - | r1
  · rcases h2 : tailSpaceYears (sep ++ rest) with - | r2
    · rcases h3 : tailDashYear (sep ++ rest) with - | r3
      · rcases tails_complete hsep rest with hc | hc | hc
        · rw [h1] at hc; exact absurd hc (by simp)
        · rw [h2] at hc; exact absurd hc (by simp)
        · rw [h3] at hc; exact absurd hc (by simp)
      · exact ⟨r3, by rw [hn]⟩
    · exact ⟨r2, by rw [hn]⟩
  · exact ⟨r1, by rw [hn]⟩

/-! ### `digitsToNat`: a digit string dominates its suffixes -/

theorem digitsToNat_foldl (ds : List Char) (acc : Nat) :
    List.foldl (fun n c => n * 10 + (c.toNat - 48)) acc ds =
      acc * 10 ^ ds.length + digitsToNat ds := by
  induction ds generalizing acc with
  | nil => simp [digitsToNat]
  | cons c t ih =>
    have hc : digitsToNat (c :: t) =
        List.foldl (fun n c => n * 10 + (c.toNat - 48)) (c.toNat - 48) t := by
      simp [digitsToNat]
    simp only [List.foldl_cons, List.length_cons]
    rw [ih, hc, ih (c.toNat - 48)]
    ring

theorem digitsToNat_drop_le (ds : List Char) (i : Nat) :
    digitsToNat (ds.drop i) ≤ digitsToNat ds := by
  conv_rhs => rw [← List.take_append_drop i ds]
  show digitsToNat (ds.drop i) ≤
    List.foldl (fun n c => n * 10 + (c.toNat - 48)) 0 (ds.take i ++ ds.drop i)
  rw [List.foldl_append, digitsToNat_foldl]
  exact Nat.le_add_left _ _

/-! ### Occurrences against the non-overlapping scan -/

theorem yearsOccurs_of_append (pre : List Char) {s : List Char} {n : Nat} (h : YearsOccurs s n) :
    YearsOccurs (pre ++ s) n := by
  obtain ⟨i, hi⟩ := h
  refine ⟨pre.length + i, ?_⟩
  have e : (pre ++ s).drop (pre.length + i) = s.drop i := by
    rw [List.drop_append_eq_append_drop, List.drop_eq_nil_of_le (by omega),
      List.nil_append, Nat.add_sub_cancel_left]
  rwa [e]

/-- An occurrence inside a region the scan is about to consume is dominated
by the consumed match's value, or lies wholly in the unconsumed remainder. -/
theorem occurrence_vs_match {s : List Char} {v n : Nat} {r : List Char}
    (hm : matchYearsAt s = some (v, r)) {i : Nat} (hi : IsYearsMatch (s.drop i) n) :
    n ≤ v ∨ YearsOccurs r n := by
  obtain ⟨ds, sep, hs, hne, hds, hsep, hv⟩ := matchYearsAt_sound hm
  by_cases h1 : i < ds.length
  · left
    have hdrop : s.drop i = ds.drop i ++ (sep ++ r) := by
      rw [hs, List.append_assoc, List.drop_append_eq_append_drop,
        show i - ds.length = 0 from by omega, List.drop_zero]
    obtain ⟨-, hn, -⟩ := IsYearsMatch_canon hi
    have htake : (s.drop i).takeWhile Char.isDigit = ds.drop i := by
      rw [hdrop]
      refine (takeDrop_append_run Char.isDigit ?_ ?_).1
      · exact fun c hc => hds c (List.drop_subset _ _ hc)
      · intro c t hct
        cases hsepc : sep with
        | nil => exact absurd hsepc (yearsSep_ne_nil hsep)
        | cons c1 t1 =>
          rw [hsepc] at hct
          simp only [List.cons_append, List.cons.injEq] at hct
          refine hct.1 ▸ yearsSep_no_digit hsep c1 ?_
          rw [hsepc]
          simp
    rw [hn, htake, hv]
    exact digitsToNat_drop_le ds i
  · by_cases h2 : i < ds.length + sep.length
    · exfalso
      have hjlt : i - ds.length < sep.length := by omega
      have hdrop : s.drop i = sep.drop (i - ds.length) ++ r := by
        rw [hs, List.append_assoc, List.drop_append_eq_append_drop,
          List.drop_eq_nil_of_le (by omega), List.nil_append,
          List.drop_append_eq_append_drop,
          show i - ds.length - sep.length = 0 from by omega, List.drop_zero]
      obtain ⟨c0, t0, hct, hc0⟩ := IsYearsMatch_head_digit hi
      rw [hdrop, List.drop_eq_getElem_cons hjlt] at hct
      simp only [List.cons_append, List.cons.injEq] at hct
      have hnd : (sep[i - ds.length]).isDigit = false :=
        yearsSep_no_digit hsep _ (List.getElem_mem hjlt)
      rw [← hct.1] at hc0
      simp [hnd] at hc0
    · right
      refine ⟨i - ds.length - sep.length, ?_⟩
      have e : s.drop i = r.drop (i - ds.length - sep.length) := by
        rw [hs, List.append_assoc, List.drop_append_eq_append_drop,
          List.drop_eq_nil_of_le (by omega), List.nil_append,
          List.drop_append_eq_append_drop, List.drop_eq_nil_of_le (by omega),
          List.nil_append]
      rwa [e] at hi

/-! ### The scan: soundness, completeness, and the maximum -/

theorem scanYears_le : ∀ (fuel : Nat) (cs : List Char), cs.length ≤ fuel →
    ∀ n, YearsOccurs cs n → n ≤ (scanYears fuel cs).foldr max 0 := by
  intro fuel
  induction fuel with
  | zero =>
    intro cs hlen n hocc
    obtain rfl : cs = [] := List.length_eq_zero.mp (Nat.le_zero.mp hlen)
    obtain ⟨i, hi⟩ := hocc
    rw [List.drop_nil] at hi
    exact absurd hi not_isYearsMatch_nil
  | succ fuel ih =>
    intro cs hlen n hocc
    cases cs with
    | nil =>
      obtain ⟨i, hi⟩ := hocc
      rw [List.drop_nil] at hi
      exact absurd hi not_isYearsMatch_nil
    | cons c cs' =>
      obtain ⟨i, hi⟩ := hocc
      cases hm : matchYearsAt (c :: cs') with
      | some vr =>
        obtain ⟨v, r⟩ := vr
        rw [show scanYears (fuel + 1) (c :: cs') = v :: scanYears fuel r from by
          simp [scanYears, hm], List.foldr_cons]
        rcases occurrence_vs_match hm hi with hle | hocc'
        · exact le_trans hle (le_max_left _ _)
        · obtain ⟨ds, sep, hs, hne, -, hsep, -⟩ := matchYearsAt_sound hm
          have hlr : r.length ≤ fuel := by
            have hlen2 := congrArg List.length hs
            simp only [List.length_cons, List.length_append] at hlen2
            have hd : 1 ≤ ds.length := by
              cases ds with
              | nil => exact absurd rfl hne
              | cons x xs => simp
            have hsp : 1 ≤ sep.length := by
              cases hsepc : sep with
              | nil => exact absurd hsepc (yearsSep_ne_nil hsep)
              | cons x xs => simp
            simp only [List.length_cons] at hlen
            omega
          exact le_trans (ih r hlr n hocc') (le_max_right _ _)
      | none =>
        rw [show scanYears (fuel + 1) (c :: cs') = scanYears fuel cs' from by
          simp [scanYears, hm]]
        cases i with
        | zero =>
          rw [List.drop_zero] at hi
          obtain ⟨r, hr⟩ := matchYearsAt_complete hi
          rw [hm] at hr
          exact absurd hr (by simp)
        | succ j =>
          have hj : IsYearsMatch (cs'.drop j) n := by simpa using hi
          exact ih cs' (by simpa using hlen) n ⟨j, hj⟩

theorem scanYears_sound : ∀ (fuel : Nat) (cs : List Char) (v : Nat),
    v ∈ scanYears fuel cs → YearsOccurs cs v := by
  intro fuel
  induction fuel with
  | zero => intro cs v hv; simp [scanYears] at hv
  | succ fuel ih =>
    intro cs v hv
    cases cs with
    | nil => simp [scanYears] at hv
    | cons c cs' =>
      cases hm : matchYearsAt (c :: cs') with
      | some vr =>
        obtain ⟨v', r⟩ := vr
        rw [show scanYears (fuel + 1) (c :: cs') = v' :: scanYears fuel r from by
          simp [scanYears, hm]] at hv
        rcases List.mem_cons.mp hv with rfl | hv'
        · obtain ⟨ds, sep, hs, hne, hds, hsep, hv0⟩ := matchYearsAt_sound hm
          exact ⟨0, by
            rw [List.drop_zero]
            exact ⟨ds, sep, r, hne, hds, hsep, hs, hv0⟩⟩
        · obtain ⟨ds, sep, hs, -, -, -, -⟩ := matchYearsAt_sound hm
          rw [hs]
          exact yearsOccurs_of_append _ (ih r v hv')
      | none =>
        rw [show scanYears (fuel + 1) (c :: cs') = scanYears fuel cs' from by
          simp [scanYears, hm]] at hv
        have hocc := ih cs' v hv
        have := yearsOccurs_of_append [c] hocc
        simpa using this

theorem scanYears_ne_nil : ∀ (fuel : Nat) (cs : List Char), cs.length ≤ fuel →
    ∀ {n : Nat}, YearsOccurs cs n → scanYears fuel cs ≠ [] := by
  intro fuel
  induction fuel with
  | zero =>
    intro cs hlen n hocc
    obtain rfl : cs = [] := List.length_eq_zero.mp (Nat.le_zero.mp hlen)
    obtain ⟨i, hi⟩ := hocc
    rw [List.drop_nil] at hi
    exact absurd hi not_isYearsMatch_nil
  | succ fuel ih =>
    intro cs hlen n hocc
    cases cs with
    | nil =>
      obtain ⟨i, hi⟩ := hocc
      rw [List.drop_nil] at hi
      exact absurd hi not_isYearsMatch_nil
    | cons c cs' =>
      cases hm : matchYearsAt (c :: cs') with
      | some vr =>
        obtain ⟨v, r⟩ := vr
        rw [show scanYears (fuel + 1) (c :: cs') = v :: scanYears fuel r from by
          simp [scanYears, hm]]
        simp
      | none =>
        rw [show scanYears (fuel + 1) (c :: cs') = scanYears fuel cs' from by
          simp [scanYears, hm]]
        obtain ⟨i, hi⟩ := hocc
        cases i with
        | zero =>
          rw [List.drop_zero] at hi
          obtain ⟨r, hr⟩ := matchYearsAt_complete hi
          rw [hm] at hr
          exact absurd hr (by simp)
        | succ j =>
          have hj : IsYearsMatch (cs'.drop j) n := by simpa using hi
          exact ih cs' (by simpa using hlen) ⟨j, hj⟩

theorem foldr_max_mem : ∀ {l : List Nat}, l ≠ [] → l.foldr max 0 ∈ l := by
  intro l
  induction l with
  | nil => intro h; exact absurd rfl h
  | cons a t ih =>
    intro _
    cases t with
    | nil => simp
    | cons b u =>
      rcases le_total a ((b :: u).foldr max 0) with hle | hle
      · rw [List.foldr_cons, max_eq_right hle]
        exact List.mem_cons_of_mem _ (ih (by simp))
      · rw [List.foldr_cons, max_eq_left hle]
        exact List.mem_cons_self _ _

/-- C4: `find_years_of_experience` returns the maximum integer N captured by
a case-insensitive occurrence of "<N>+ years", "<N> years" or "<N>-year" in
the text (it is an upper bound on all occurrences and is itself attained by
one), and returns 0 when no such pattern occurs. -/
theorem years_is_max_of_occurrences (text : List Char) :
    (∀ n, YearsOccurs text n → n ≤ find_years_of_experience text) ∧
    ((∃ n, YearsOccurs text n) → YearsOccurs text (find_years_of_experience text)) ∧
    ((∀ n, ¬ YearsOccurs text n) → find_years_of_experience text = 0) := by
  refine ⟨fun n h => scanYears_le text.length text le_rfl n h, ?_, ?_⟩
  · rintro ⟨n, hn⟩
    have hne := scanYears_ne_nil text.length text le_rfl hn
    exact scanYears_sound text.length text _ (foldr_max_mem hne)
  · intro h
    unfold find_years_of_experience
    cases hscan : scanYears text.length text with
    | nil => simp
    | cons a t =>
      exfalso
      have hmem : (scanYears text.length text).foldr max 0 ∈ scanYears text.length text := by
        rw [hscan]
        exact foldr_max_mem (by simp)
      exact h _ (scanYears_sound text.length text _ hmem)

end TalentScan
